import Mathlib

/-!
Shallow embedding of `src/Home.py` (FRaN-X entity framing app) and, where the
spec's annotator component (`render_text.py`) is absent from the sources, a
model built from the spec's own words.  Scores and probabilities are embedded
as rationals; Python strings are embedded as `String` / `List Char`; Python
dicts are embedded as association lists built in insertion order.
-/

namespace FranX

/-! ### Python string primitives used by `predict_with_cached_model` -/

/-- Python slice `text[s:e]` on a character list (for `0 ≤ s ≤ e ≤ len` this is
exactly Python's semantics; Python also returns `""` when `s ≥ e`, which the
truncated subtraction reproduces). -/
def pySlice (l : List Char) (s e : ℕ) : List Char :=
  (l.drop s).take (e - s)

/-- Whitespace as recognised by Python's `str.strip` family, restricted to the
ASCII whitespace characters (the model does not cover exotic Unicode spaces). -/
def isPySpace (c : Char) : Bool :=
  c == ' ' || c == '\t' || c == '\n' || c == '\r' || c == '\x0b' || c == '\x0c'

/-- Python `str.lstrip()`. -/
def lstrip (l : List Char) : List Char :=
  l.dropWhile isPySpace

/-- Python `str.rstrip()`. -/
def rstrip (l : List Char) : List Char :=
  (l.reverse.dropWhile isPySpace).reverse

/-- Python `str.strip()`. -/
def pyStrip (l : List Char) : List Char :=
  rstrip (lstrip l)

/-! ### `predict_with_cached_model` (Home.py lines 85–95)

One entity span as returned by `bert_model.predict(text, return_format='spans')`:
character offsets plus a probability per main role. -/

structure Span where
  start : ℕ
  «end» : ℕ
  prob_antagonist : ℚ
  prob_protagonist : ℚ
  prob_innocent : ℚ
  prob_unknown : ℚ

/-- Python `<` on strings: lexicographic on code points. -/
def pyStrLt : List Char → List Char → Bool
  | [], [] => false
  | [], _ :: _ => true
  | _ :: _, [] => false
  | a :: as, b :: bs => if a < b then true else if b < a then false else pyStrLt as bs

/-- Python `<` on `(float, str)` pairs: lexicographic. -/
def pyPairLt (a b : ℚ × String) : Bool :=
  if a.1 < b.1 then true else if b.1 < a.1 then false else pyStrLt a.2.data b.2.data

/-- Python `max` over a nonempty list: left fold keeping the current maximum,
replacing it only on a strictly larger element. -/
def pyMaxPair (x : ℚ × String) (rest : List (ℚ × String)) : ℚ × String :=
  rest.foldl (fun acc y => if pyPairLt acc y then y else acc) x

/-- Lines 90–94: `role_probs = [...]; _, role = max(role_probs)`. -/
def roleOf (sp : Span) : String :=
  (pyMaxPair (sp.prob_antagonist, "Antagonist")
    [(sp.prob_protagonist, "Protagonist"),
     (sp.prob_innocent, "Innocent"),
     (sp.prob_unknown, "Unknown")]).2

/-- Lines 86–95: the `(s, e, role)` record appended to `pred_spans` for one
span: `seg = text[s:e]; s += len(seg) - len(seg.lstrip()); e -= len(seg) -
len(seg.rstrip())`. -/
def predSpan (text : List Char) (sp : Span) : ℕ × ℕ × String :=
  let s := sp.start
  let e := sp.«end»
  let seg := pySlice text s e
  let s' := s + (seg.length - (lstrip seg).length)
  let e' := e - (seg.length - (rstrip seg).length)
  (s', e', roleOf sp)

/-! ### Python dict as an association list (insertion order, last value wins) -/

/-- `d[k] = v` on a Python dict: an existing key keeps its position and gets the
new value, a new key is appended. -/
def dictInsert (d : List (String × ℚ)) (kv : String × ℚ) : List (String × ℚ) :=
  if d.any (fun p => p.1 == kv.1) then
    d.map (fun p => if p.1 == kv.1 then (p.1, kv.2) else p)
  else d ++ [kv]

/-- Building a dict from a list of pairs (a dict comprehension, or `dict(pairs)`). -/
def dictBuild (l : List (String × ℚ)) : List (String × ℚ) :=
  l.foldl dictInsert []

def keys (l : List (String × ℚ)) : List String :=
  l.map Prod.fst

/-! ### `sorted(..., key=lambda x: x[1], reverse=True)`: stable descending sort -/

/-- Insert one pair into a list sorted by descending score, after any pair with
a greater-or-equal score (stability). -/
def insertDesc (x : String × ℚ) : List (String × ℚ) → List (String × ℚ)
  | [] => [x]
  | y :: ys => if y.2 < x.2 then x :: y :: ys else y :: insertDesc x ys

/-- Stable sort by descending score. -/
def sortDesc (l : List (String × ℚ)) : List (String × ℚ) :=
  l.foldr insertDesc []

/-- Python `round(q, 4)` (the model rounds rational ties upward; the float
half-to-even corner is not represented). -/
def round4 (q : ℚ) : ℚ :=
  (round (q * 10000) : ℤ) / 10000

/-! ### `run_stage2_with_cached_model` (Home.py lines 119–156) -/

/-- One row of the stage-2 input frame: the columns read by
`pipeline_with_confidence`. -/
structure Stage2Row where
  entity_mention : String
  p_main_role : String
  context : String

/-- Lines 123–127: the prompt string handed to the classification pipeline. -/
def stage2InputText (r : Stage2Row) : String :=
  "Entity: " ++ r.entity_mention ++ "\nMain Role: " ++ r.p_main_role ++
    "\nContext: " ++ r.context

/-- Lines 122–137.  The classification pipeline is external; it is embedded as
a function `clf` from the prompt to `none` (the call raised) or `some scores`
(the list of label/score records).  A raised exception yields `{}`; otherwise
scores strictly above the threshold are kept, rounded to 4 digits, and the
resulting dict is rebuilt sorted by descending score. -/
def pipeline_with_confidence (clf : String → Option (List (String × ℚ)))
    (threshold : ℚ) (r : Stage2Row) : List (String × ℚ) :=
  match clf (stage2InputText r) with
  | none => []
  | some scores =>
    let filtered_scores :=
      dictBuild ((scores.filter (fun s => threshold < s.2)).map
        (fun s => (s.1, round4 s.2)))
    dictBuild (sortDesc filtered_scores)

/-- Lines 139–143: roles whose score is within `margin` of the top score
(empty input gives the empty list). -/
def select_roles_within_margin (margin : ℚ) (scores : List (String × ℚ)) :
    List String :=
  match scores with
  | [] => []
  | p :: rest =>
    let top_score := rest.foldl (fun a q => max a q.2) p.2
    ((p :: rest).filter (fun q => decide (top_score - margin ≤ q.2))).map Prod.fst

/-- Lines 145–148: `{role: scores[role] for role in margin_roles if role in
scores}` (dict lookup = first binding of the key). -/
def filter_scores_by_margin (scores : List (String × ℚ))
    (margin_roles : List String) : List (String × ℚ) :=
  dictBuild (margin_roles.filterMap
    (fun role => (scores.find? (fun p => p.1 == role)).map (fun p => (role, p.2))))

/-- The three derived columns computed for one row (lines 151–153). -/
def stage2RowResult (clf : String → Option (List (String × ℚ)))
    (threshold margin : ℚ) (r : Stage2Row) :
    List (String × ℚ) × List String × List (String × ℚ) :=
  let scores := pipeline_with_confidence clf threshold r
  let margin_roles := select_roles_within_margin margin scores
  (scores, margin_roles, filter_scores_by_margin scores margin_roles)

/-- Lines 119–156: the whole frame, row by row. -/
def run_stage2_with_cached_model (clf : String → Option (List (String × ℚ)))
    (threshold margin : ℚ) (df : List Stage2Row) :
    List (List (String × ℚ) × List String × List (String × ℚ)) :=
  df.map (stage2RowResult clf threshold margin)

/-! ### Model-availability flags (Home.py lines 164–175) -/

/-- The `if/elif/elif/else` chain assigning `prediction_error`; a model is
embedded as a `Bool` (`true` = loaded, i.e. not `None`). -/
def prediction_error (nerLoaded stage2Loaded : Bool) : Option String :=
  if nerLoaded && stage2Loaded then none
  else if !nerLoaded then some "NER model failed to load"
  else if !stage2Loaded then some "Stage 2 model failed to load"
  else some "Both models failed to load"

/-- The companion `PREDICTION_AVAILABLE` flag. -/
def prediction_available (nerLoaded stage2Loaded : Bool) : Bool :=
  nerLoaded && stage2Loaded

/-! ### `filter_labels_by_role` (Home.py lines 184–192) -/

/-- One mention record as stored in the labels mapping (only the field read by
`filter_labels_by_role` is modelled beyond payload identity: `main_role`, plus
an opaque payload so that "no mention is modified" is meaningful). -/
structure Mention where
  main_role : String
  payload : ℕ
deriving DecidableEq

/-- Lines 184–192: keep, per entity, the mentions whose `main_role` lies in the
role filter; drop entities with no surviving mention. -/
def filter_labels_by_role (labels : List (String × List Mention))
    (role_filter : List String) : List (String × List Mention) :=
  labels.filterMap (fun p =>
    let filtered_mentions := p.2.filter (fun m => decide (m.main_role ∈ role_filter))
    if filtered_mentions.isEmpty then none else some (p.1, filtered_mentions))

/-! ### The sentence-rendering loops (Home.py lines 542–545 and 561–564)

`format_sentence_with_spans` lives in `render_text.py`, which is not among the
sources; the loops only need its type, so it is a parameter `f` taking a
sentence and the current accumulator and returning markup plus the updated
accumulator (`Option α` models the initial Python `None`). -/

/-- The caller's loop: `seen_fine_roles = None`, then for each sentence
`html_block, seen_fine_roles = format_sentence_with_spans(sent, ..., seen_fine_roles)`
with each markup block displayed in order. -/
def renderSentencesLoop {α : Type} (f : String → Option α → String × Option α)
    (sents : List String) : List String × Option α :=
  sents.foldl
    (fun acc sent =>
      let r := f sent acc.2
      (acc.1 ++ [r.1], r.2))
    ([], (none : Option α))

/-- Sequential threading as the spec describes it: the first call receives the
empty accumulator, every later call receives the accumulator returned by the
previous call. -/
def threadedHtmls {α : Type} (f : String → Option α → String × Option α) :
    Option α → List String → List String
  | _, [] => []
  | acc, s :: rest => (f s acc).1 :: threadedHtmls f (f s acc).2 rest

/-- The accumulator after sequentially threading all calls. -/
def threadedAcc {α : Type} (f : String → Option α → String × Option α) :
    Option α → List String → Option α
  | acc, [] => acc
  | acc, s :: rest => threadedAcc f (f s acc).2 rest

/-! ### The document annotator (spec §4.1), absent from the sources

`reformat_text_html_with_tooltips` is imported from `render_text.py`, which is
not part of the sources here; it is modelled from the spec. -/

/-- One mention as consumed by the document annotator. -/
structure DocMention where
  entity : String
  start : ℕ
  «end» : ℕ
  main_role : String
  fine_scores : List (String × ℚ)

/-- HTML escaping of one character, per Python's `html.escape` (quote=True). -/
def escapeChar (c : Char) : String :=
  if c == '&' then "&amp;"
  else if c == '<' then "&lt;"
  else if c == '>' then "&gt;"
  else if c == '"' then "&quot;"
  else if c == '\'' then "&#x27;"
  else String.singleton c

/-- HTML escaping of a character list. -/
def htmlEscape : List Char → String
  | [] => ""
  | c :: cs => escapeChar c ++ htmlEscape cs

/-- Modelled from the spec: the fixed role colour table with a neutral default
for unrecognised roles (spec §4.1 output contract and §7). -/
def roleColor (role : String) : String :=
  if role == "Protagonist" then "green"
  else if role == "Antagonist" then "red"
  else if role == "Innocent" then "blue"
  else if role == "Unknown" then "gray"
  else "gray"

/-- Modelled from the spec: tooltip text listing fine roles and confidences
sorted descending by confidence (spec §4.1 output contract). -/
def tooltipText (m : DocMention) : String :=
  String.intercalate ", "
    ((sortDesc m.fine_scores).map (fun p => p.1 ++ ": " ++ toString p.2))

/-- Modelled from the spec: at scan position `pos`, the mention rendered there,
if any — a mention whose clamped range begins at `pos` and is nonempty, with
ties broken by longest extent then stable input order (spec §4.1 overlap
tie-break; clamping per §4.1 edge cases). -/
def pickAt (mentions : List DocMention) (textLen pos : ℕ) : Option DocMention :=
  (mentions.filter
      (fun m => min m.start textLen == pos && pos < min m.«end» textLen)).foldl
    (fun acc m =>
      match acc with
      | none => some m
      | some b => if min b.«end» textLen < min m.«end» textLen then some m else acc)
    none

/-- Modelled from the spec: the left-to-right scan of `annotate_document`
(spec §4.1).  `rest` is the text from position `pos` on, `seen` the entity
texts already annotated (for repeat suppression). -/
def annotGo (hide_repeat : Bool) (mentions : List DocMention) (textLen : ℕ) :
    List Char → ℕ → List String → String
  | [], _, _ => ""
  | c :: rest, pos, seen =>
    match pickAt mentions textLen pos with
    | none => escapeChar c ++ annotGo hide_repeat mentions textLen rest (pos + 1) seen
    | some m =>
      let e := min m.«end» textLen
      let seg := c :: rest.take (e - pos - 1)
      if hide_repeat && seen.contains m.entity then
        htmlEscape seg ++
          annotGo hide_repeat mentions textLen (rest.drop (e - pos - 1)) e seen
      else
        "<span style=\x7bbackground-color:" ++ roleColor m.main_role ++
          "\x7d title=\x22" ++ tooltipText m ++ "\x22>" ++ htmlEscape seg ++
          "</span>" ++
          annotGo hide_repeat mentions textLen (rest.drop (e - pos - 1)) e
            (seen ++ [m.entity])
termination_by rest _ _ => rest.length
decreasing_by
  all_goals simp_all [List.length_drop]
  all_goals omega

/-- Modelled from the spec: `reformat_text_html_with_tooltips` — the spec's
`annotate_document(text, mentions, hide_repeat)` — is defined in
`render_text.py`, which is missing from the sources.  Per spec §4.1 it scans
the text left to right, wraps at most one mention per position (earliest
start, then longest extent, then input order), HTML-escapes every character,
suppresses repeated entity texts when asked, and clamps out-of-range offsets. -/
def reformat_text_html_with_tooltips (text : String)
    (mentions : List DocMention) (hide_repeat : Bool) : String :=
  annotGo hide_repeat mentions text.data.length text.data 0 []

/-! ### Association-list (dict) lemmas -/

theorem mem_keys (l : List (String × ℚ)) (k : String) :
    k ∈ keys l ↔ ∃ p ∈ l, p.1 = k := by
  simp [keys, List.mem_map]

theorem any_key_iff (d : List (String × ℚ)) (k : String) :
    (d.any (fun p => p.1 == k)) = true ↔ k ∈ keys d := by
  simp [List.any_eq_true, mem_keys]

theorem keys_map_update (d : List (String × ℚ)) (k : String) (v : ℚ) :
    keys (d.map (fun p => if p.1 == k then (p.1, v) else p)) = keys d := by
  have hc : (Prod.fst ∘ fun p : String × ℚ => if p.1 == k then (p.1, v) else p)
      = Prod.fst := by
    funext p
    by_cases h : p.1 == k <;> simp [Function.comp, h]
  unfold keys
  rw [List.map_map, hc]

theorem mem_keys_dictInsert (d : List (String × ℚ)) (kv : String × ℚ)
    (l : String) : l ∈ keys (dictInsert d kv) ↔ l ∈ keys d ∨ l = kv.1 := by
  unfold dictInsert
  split
  · next h =>
    rw [keys_map_update]
    have hk : kv.1 ∈ keys d := (any_key_iff d kv.1).mp h
    constructor
    · exact Or.inl
    · rintro (h1 | rfl)
      · exact h1
      · exact hk
  · simp [keys]

theorem nodup_keys_dictInsert (d : List (String × ℚ)) (kv : String × ℚ)
    (h : (keys d).Nodup) : (keys (dictInsert d kv)).Nodup := by
  unfold dictInsert
  split
  · next _ => rw [keys_map_update]; exact h
  · next hc =>
    have hk : kv.1 ∉ keys d := by
      intro hmem
      exact hc ((any_key_iff d kv.1).mpr hmem)
    have : keys (d ++ [kv]) = (keys d).concat kv.1 := by
      simp [keys, List.concat_eq_append]
    rw [this]
    exact List.Nodup.concat hk h

theorem nodup_keys_foldl (xs : List (String × ℚ)) :
    ∀ acc, (keys acc).Nodup → (keys (xs.foldl dictInsert acc)).Nodup := by
  induction xs with
  | nil => intro acc h; exact h
  | cons x rest ih =>
    intro acc h
    exact ih (dictInsert acc x) (nodup_keys_dictInsert acc x h)

theorem nodup_keys_dictBuild (xs : List (String × ℚ)) :
    (keys (dictBuild xs)).Nodup := by
  exact nodup_keys_foldl xs [] (by simp [keys])

theorem mem_keys_foldl (xs : List (String × ℚ)) :
    ∀ acc l, l ∈ keys (xs.foldl dictInsert acc) ↔ l ∈ keys acc ∨ l ∈ keys xs := by
  induction xs with
  | nil => intro acc l; simp [keys]
  | cons x rest ih =>
    intro acc l
    rw [List.foldl_cons, ih (dictInsert acc x) l, mem_keys_dictInsert]
    simp [keys]
    tauto

theorem mem_keys_dictBuild (xs : List (String × ℚ)) (l : String) :
    l ∈ keys (dictBuild xs) ↔ l ∈ keys xs := by
  rw [dictBuild, mem_keys_foldl]
  simp [keys]

theorem dictInsert_of_not_mem (acc : List (String × ℚ)) (x : String × ℚ)
    (h : x.1 ∉ keys acc) : dictInsert acc x = acc ++ [x] := by
  unfold dictInsert
  rw [if_neg]
  intro hc
  exact h ((any_key_iff acc x.1).mp hc)

theorem foldl_dictInsert_of_nodup (xs : List (String × ℚ)) :
    ∀ acc, (keys (acc ++ xs)).Nodup → xs.foldl dictInsert acc = acc ++ xs := by
  induction xs with
  | nil => intro acc _; simp
  | cons x rest ih =>
    intro acc h
    have hkeys : keys (acc ++ x :: rest) = keys acc ++ x.1 :: keys rest := by
      simp [keys]
    rw [hkeys] at h
    have hx : x.1 ∉ keys acc := by
      intro hmem
      rcases (List.nodup_append.mp h) with ⟨_, _, hdisj⟩
      exact hdisj hmem (List.mem_cons_self x.1 (keys rest))
    rw [List.foldl_cons, dictInsert_of_not_mem acc x hx, ih (acc ++ [x])]
    · simp
    · have : (acc ++ [x]) ++ rest = acc ++ x :: rest := by simp
      rw [this, hkeys]
      exact h

theorem dictBuild_of_nodup (xs : List (String × ℚ))
    (h : (keys xs).Nodup) : dictBuild xs = xs := by
  rw [dictBuild, foldl_dictInsert_of_nodup xs []]
  · rfl
  · simpa using h

/-! ### Stable descending sort lemmas -/

theorem insertDesc_perm (x : String × ℚ) (l : List (String × ℚ)) :
    (insertDesc x l).Perm (x :: l) := by
  induction l with
  | nil => exact List.Perm.refl _
  | cons y ys ih =>
    unfold insertDesc
    split
    · exact List.Perm.refl _
    · exact List.Perm.trans (List.Perm.cons y ih) (List.Perm.swap x y ys)

theorem sortDesc_perm (l : List (String × ℚ)) : (sortDesc l).Perm l := by
  induction l with
  | nil => exact List.Perm.refl _
  | cons x xs ih =>
    have : sortDesc (x :: xs) = insertDesc x (sortDesc xs) := rfl
    rw [this]
    exact List.Perm.trans (insertDesc_perm x (sortDesc xs)) (List.Perm.cons x ih)

theorem pairwise_insertDesc (x : String × ℚ) (l : List (String × ℚ))
    (h : l.Pairwise (fun a b => b.2 ≤ a.2)) :
    (insertDesc x l).Pairwise (fun a b => b.2 ≤ a.2) := by
  induction l with
  | nil => simp [insertDesc]
  | cons y ys ih =>
    rcases List.pairwise_cons.mp h with ⟨hy, hys⟩
    unfold insertDesc
    split
    · next hlt =>
      refine List.pairwise_cons.mpr ⟨?_, h⟩
      intro b hb
      rcases List.mem_cons.mp hb with rfl | hbys
      · exact le_of_lt hlt
      · exact le_trans (hy b hbys) (le_of_lt hlt)
    · next hge =>
      refine List.pairwise_cons.mpr ⟨?_, ih hys⟩
      intro b hb
      rcases List.mem_cons.mp ((insertDesc_perm x ys).mem_iff.mp hb) with rfl | hbys
      · exact le_of_not_lt hge
      · exact hy b hbys

theorem pairwise_sortDesc (l : List (String × ℚ)) :
    (sortDesc l).Pairwise (fun a b => b.2 ≤ a.2) := by
  induction l with
  | nil => exact List.Pairwise.nil
  | cons x xs ih => exact pairwise_insertDesc x (sortDesc xs) ih

theorem keys_map_round (xs : List (String × ℚ)) :
    keys (xs.map (fun s => (s.1, round4 s.2))) = keys xs := by
  simp [keys, List.map_map]

/-! ### Maximum-score fold lemmas (for `select_roles_within_margin`) -/

theorem le_foldl_max (rest : List (String × ℚ)) :
    ∀ a : ℚ, a ≤ rest.foldl (fun acc q => max acc q.2) a := by
  induction rest with
  | nil => intro a; exact le_refl a
  | cons y ys ih =>
    intro a
    exact le_trans (le_max_left a y.2) (ih (max a y.2))

theorem mem_le_foldl_max (rest : List (String × ℚ)) :
    ∀ (a : ℚ) (q : String × ℚ), q ∈ rest →
      q.2 ≤ rest.foldl (fun acc q => max acc q.2) a := by
  induction rest with
  | nil => intro a q hq; exact absurd hq (List.not_mem_nil q)
  | cons y ys ih =>
    intro a q hq
    rcases List.mem_cons.mp hq with rfl | hq2
    · exact le_trans (le_max_right a q.2) (le_foldl_max ys (max a q.2))
    · exact ih (max a y.2) q hq2

theorem foldl_max_cases (rest : List (String × ℚ)) :
    ∀ a : ℚ, rest.foldl (fun acc q => max acc q.2) a = a ∨
      ∃ q ∈ rest, rest.foldl (fun acc q => max acc q.2) a = q.2 := by
  induction rest with
  | nil => intro a; exact Or.inl rfl
  | cons y ys ih =>
    intro a
    rcases ih (max a y.2) with h | ⟨q, hq, h⟩
    · rcases max_choice a y.2 with hm | hm
      · left
        rw [List.foldl_cons]
        show List.foldl (fun acc q => max acc q.2) (max a y.2) ys = a
        rw [h, hm]
      · right
        refine ⟨y, List.mem_cons_self y ys, ?_⟩
        rw [List.foldl_cons]
        show List.foldl (fun acc q => max acc q.2) (max a y.2) ys = y.2
        rw [h, hm]
    · refine Or.inr ⟨q, List.mem_cons_of_mem y hq, ?_⟩
      rw [List.foldl_cons]
      exact h

/-! ### `find?` on a dict with distinct keys -/

theorem find?_key_of_nodup : ∀ l : List (String × ℚ), (keys l).Nodup →
    ∀ (r : String) (s : ℚ), (r, s) ∈ l →
      l.find? (fun p => p.1 == r) = some (r, s) := by
  intro l
  induction l with
  | nil => intro _ r s hm; exact absurd hm (List.not_mem_nil _)
  | cons q qs ih =>
    intro h r s hm
    have hk : (q.1 :: keys qs).Nodup := by
      simpa only [keys, List.map_cons] using h
    have hcons := List.nodup_cons.mp hk
    by_cases hq : (q.1 == r) = true
    · have hqr : q.1 = r := by simpa using hq
      have hnotin : r ∉ keys qs := by rw [← hqr]; exact hcons.1
      have hqeq : q = (r, s) := by
        rcases List.mem_cons.mp hm with h1 | h1
        · exact h1.symm
        · exact absurd ((mem_keys qs r).mpr ⟨(r, s), h1, rfl⟩) hnotin
      rw [List.find?_cons_of_pos (p := fun p => p.1 == r) qs hq, hqeq]
    · have hqr : ¬ q.1 = r := by simpa using hq
      have hm2 : (r, s) ∈ qs := by
        rcases List.mem_cons.mp hm with h1 | h1
        · exact absurd (by rw [← h1]) hqr
        · exact h1
      rw [List.find?_cons_of_neg (p := fun p => p.1 == r) qs hq]
      exact ih hcons.2 r s hm2

theorem find?_key_mem (l : List (String × ℚ)) (r : String) (p : String × ℚ)
    (h : l.find? (fun p => p.1 == r) = some p) : p ∈ l ∧ p.1 = r :=
  ⟨List.mem_of_find?_eq_some h, by simpa using List.find?_some h⟩

theorem keys_filterMap_keyed_sublist {g : String → Option (String × ℚ)}
    (hg : ∀ role p, g role = some p → p.1 = role) :
    ∀ roles : List String, (keys (roles.filterMap g)).Sublist roles := by
  intro roles
  induction roles with
  | nil => exact List.Sublist.refl _
  | cons r0 rest ih =>
    cases hf : g r0 with
    | none =>
      rw [List.filterMap_cons, hf]
      exact ih.cons r0
    | some p =>
      rw [List.filterMap_cons, hf]
      have h1 : keys (p :: rest.filterMap g) = p.1 :: keys (rest.filterMap g) := rfl
      rw [h1, hg r0 p hf]
      exact ih.cons₂ r0

theorem mem_filter_scores_by_margin (scores : List (String × ℚ))
    (roles : List String) (hnd : (keys scores).Nodup) (hroles : roles.Nodup)
    (r : String) (s : ℚ) :
    (r, s) ∈ filter_scores_by_margin scores roles ↔
      r ∈ roles ∧ (r, s) ∈ scores := by
  unfold filter_scores_by_margin
  have hg : ∀ (role : String) (p : String × ℚ),
      (scores.find? (fun p => p.1 == role)).map (fun p => (role, p.2)) = some p →
        p.1 = role := by
    intro role p hp
    rcases Option.map_eq_some'.mp hp with ⟨q, _, hq2⟩
    rw [← hq2]
  have hsub := keys_filterMap_keyed_sublist hg roles
  rw [dictBuild_of_nodup _ (hroles.sublist hsub), List.mem_filterMap]
  constructor
  · rintro ⟨role, hrole, hmap⟩
    rcases Option.map_eq_some'.mp hmap with ⟨p, hfind, heq⟩
    have hro : role = r := congrArg Prod.fst heq
    subst hro
    rcases find?_key_mem scores role p hfind with ⟨hps, hp1⟩
    have hs2 : p.2 = s := congrArg Prod.snd heq
    have hp : p = (role, s) := by
      rcases p with ⟨a, b⟩
      simp only at hp1 hs2
      rw [hp1, hs2]
    exact ⟨hrole, hp ▸ hps⟩
  · rintro ⟨hr, hs⟩
    refine ⟨r, hr, ?_⟩
    rw [find?_key_of_nodup scores hnd r s hs]
    rfl

theorem select_roles_nodup (margin : ℚ) (scores : List (String × ℚ))
    (h : (keys scores).Nodup) :
    (select_roles_within_margin margin scores).Nodup := by
  cases scores with
  | nil => exact List.Pairwise.nil
  | cons p rest =>
    show (((p :: rest).filter (fun q =>
      decide (rest.foldl (fun a q => max a q.2) p.2 - margin ≤ q.2))).map
        Prod.fst).Nodup
    exact h.sublist ((List.filter_sublist (p :: rest)).map Prod.fst)

theorem top_margin_iff (margin : ℚ) (p : String × ℚ)
    (rest : List (String × ℚ)) (s : ℚ) :
    rest.foldl (fun a q => max a q.2) p.2 - margin ≤ s ↔
      ∀ q ∈ p :: rest, q.2 - margin ≤ s := by
  constructor
  · intro h q hq
    have hle : q.2 ≤ rest.foldl (fun a q => max a q.2) p.2 := by
      rcases List.mem_cons.mp hq with rfl | hq2
      · exact le_foldl_max rest q.2
      · exact mem_le_foldl_max rest p.2 q hq2
    linarith
  · intro h
    rcases foldl_max_cases rest p.2 with hc | ⟨q, hq, hc⟩
    · rw [hc]
      exact h p (List.mem_cons_self p rest)
    · rw [hc]
      exact h q (List.mem_cons_of_mem p hq)

theorem mem_select_iff (margin : ℚ) (p : String × ℚ)
    (rest : List (String × ℚ)) (r : String) :
    r ∈ select_roles_within_margin margin (p :: rest) ↔
      ∃ s, (r, s) ∈ p :: rest ∧ ∀ q ∈ p :: rest, q.2 - margin ≤ s := by
  show r ∈ ((p :: rest).filter (fun q =>
    decide (rest.foldl (fun a q => max a q.2) p.2 - margin ≤ q.2))).map
      Prod.fst ↔ _
  rw [List.mem_map]
  constructor
  · rintro ⟨x, hx, rfl⟩
    rcases List.mem_filter.mp hx with ⟨hxmem, hxd⟩
    exact ⟨x.2, hxmem,
      (top_margin_iff margin p rest x.2).mp (by simpa using hxd)⟩
  · rintro ⟨s, hs, hall⟩
    exact ⟨(r, s), List.mem_filter.mpr
      ⟨hs, by simpa using (top_margin_iff margin p rest s).mpr hall⟩, rfl⟩

/-! ### Whitespace-trimming lemmas (for `predict_with_cached_model`) -/

theorem dropWhile_eq_drop_len (p : Char → Bool) :
    ∀ l : List Char, l.dropWhile p = l.drop (l.takeWhile p).length := by
  intro l
  induction l with
  | nil => rfl
  | cons c cs ih =>
    by_cases h : p c = true
    · rw [List.dropWhile_cons_of_pos h, List.takeWhile_cons_of_pos h]
      simpa using ih
    · rw [List.dropWhile_cons_of_neg h, List.takeWhile_cons_of_neg h]
      rfl

theorem takeWhile_append_of_mem_not (p : Char → Bool) :
    ∀ xs ys : List Char, (∃ x ∈ xs, ¬ p x = true) →
      (xs ++ ys).takeWhile p = xs.takeWhile p := by
  intro xs
  induction xs with
  | nil =>
    intro ys h
    rcases h with ⟨x, hx, _⟩
    exact absurd hx (List.not_mem_nil x)
  | cons c cs ih =>
    intro ys h
    by_cases hc : p c = true
    · rw [List.cons_append, List.takeWhile_cons_of_pos hc,
        List.takeWhile_cons_of_pos hc]
      congr 1
      apply ih
      rcases h with ⟨x, hx, hpx⟩
      rcases List.mem_cons.mp hx with rfl | hx2
      · exact absurd hc hpx
      · exact ⟨x, hx2, hpx⟩
    · rw [List.cons_append, List.takeWhile_cons_of_neg hc,
        List.takeWhile_cons_of_neg hc]

theorem length_takeWhile_lt_of_mem_not (p : Char → Bool) :
    ∀ l : List Char, (∃ x ∈ l, ¬ p x = true) →
      (l.takeWhile p).length < l.length := by
  intro l
  induction l with
  | nil =>
    intro h
    rcases h with ⟨x, hx, _⟩
    exact absurd hx (List.not_mem_nil x)
  | cons c cs ih =>
    intro h
    by_cases hc : p c = true
    · rw [List.takeWhile_cons_of_pos hc]
      have hcs : ∃ x ∈ cs, ¬ p x = true := by
        rcases h with ⟨x, hx, hpx⟩
        rcases List.mem_cons.mp hx with rfl | hx2
        · exact absurd hc hpx
        · exact ⟨x, hx2, hpx⟩
      simpa using ih hcs
    · rw [List.takeWhile_cons_of_neg hc]
      simp

theorem trailing_dropWhile_eq (p : Char → Bool) (l : List Char)
    (h : ∃ x ∈ l, ¬ p x = true) :
    (l.dropWhile p).reverse.takeWhile p = l.reverse.takeWhile p := by
  have hdec : l.reverse = (l.dropWhile p).reverse ++ (l.takeWhile p).reverse := by
    rw [← List.reverse_append, List.takeWhile_append_dropWhile]
  have hex : ∃ x ∈ (l.dropWhile p).reverse, ¬ p x = true := by
    rcases h with ⟨x, hx, hpx⟩
    have hx2 : x ∈ l.takeWhile p ++ l.dropWhile p := by
      rw [List.takeWhile_append_dropWhile]
      exact hx
    rcases List.mem_append.mp hx2 with hxt | hxd
    · exact absurd (List.mem_takeWhile_imp hxt) hpx
    · exact ⟨x, List.mem_reverse.mpr hxd, hpx⟩
  rw [hdec, takeWhile_append_of_mem_not p _ _ hex]

theorem rstrip_eq_take (l : List Char) :
    rstrip l = l.take (l.length - (l.reverse.takeWhile isPySpace).length) := by
  unfold rstrip
  rw [dropWhile_eq_drop_len isPySpace l.reverse, List.drop_reverse,
    List.reverse_reverse]

theorem pyStrip_eq_of_exists (l : List Char)
    (h : ∃ c ∈ l, ¬ isPySpace c = true) :
    pyStrip l = (l.drop (l.takeWhile isPySpace).length).take
      (l.length - (l.takeWhile isPySpace).length -
        (l.reverse.takeWhile isPySpace).length) := by
  unfold pyStrip lstrip
  rw [rstrip_eq_take (l.dropWhile isPySpace),
    trailing_dropWhile_eq isPySpace l h,
    dropWhile_eq_drop_len isPySpace l, List.length_drop]

theorem pyStrip_eq_nil_of_all (l : List Char)
    (h : ∀ c ∈ l, isPySpace c = true) : pyStrip l = [] := by
  unfold pyStrip lstrip
  rw [List.dropWhile_eq_nil_iff.mpr h]
  rfl

theorem takeWhile_len_of_all (l : List Char)
    (h : ∀ c ∈ l, isPySpace c = true) :
    (l.takeWhile isPySpace).length = l.length := by
  rw [List.takeWhile_eq_self_iff.mpr h]

theorem takeWhile_rev_len_of_all (l : List Char)
    (h : ∀ c ∈ l, isPySpace c = true) :
    (l.reverse.takeWhile isPySpace).length = l.length := by
  have hr : ∀ c ∈ l.reverse, isPySpace c = true := by
    intro c hc
    exact h c (List.mem_reverse.mp hc)
  rw [List.takeWhile_eq_self_iff.mpr hr, List.length_reverse]

theorem takeWhile_len_le (p : Char → Bool) (l : List Char) :
    (l.takeWhile p).length ≤ l.length :=
  (List.takeWhile_sublist p).length_le

theorem takeWhile_rev_len_le (p : Char → Bool) (l : List Char) :
    (l.reverse.takeWhile p).length ≤ l.length := by
  have := (List.takeWhile_sublist (l := l.reverse) p).length_le
  simpa using this

theorem predSpan_fst (text : List Char) (sp : Span) :
    (predSpan text sp).1 =
      sp.start + ((pySlice text sp.start sp.«end»).takeWhile isPySpace).length := by
  unfold predSpan
  simp only
  rw [show lstrip (pySlice text sp.start sp.«end») =
    (pySlice text sp.start sp.«end»).drop
      ((pySlice text sp.start sp.«end»).takeWhile isPySpace).length from
    dropWhile_eq_drop_len isPySpace _]
  rw [List.length_drop]
  have := takeWhile_len_le isPySpace (pySlice text sp.start sp.«end»)
  omega

theorem predSpan_snd (text : List Char) (sp : Span) :
    (predSpan text sp).2.1 =
      sp.«end» -
        ((pySlice text sp.start sp.«end»).reverse.takeWhile isPySpace).length := by
  unfold predSpan
  simp only
  rw [rstrip_eq_take (pySlice text sp.start sp.«end»), List.length_take]
  have := takeWhile_rev_len_le isPySpace (pySlice text sp.start sp.«end»)
  omega

theorem pySlice_length (text : List Char) (s e : ℕ) (h1 : s ≤ e)
    (h2 : e ≤ text.length) : (pySlice text s e).length = e - s := by
  unfold pySlice
  rw [List.length_take, List.length_drop]
  omega

/-! ### Role selection (Python `max` over probability/label pairs) -/

theorem pyMaxPair_mem : ∀ (rest : List (ℚ × String)) (x : ℚ × String),
    pyMaxPair x rest ∈ x :: rest := by
  intro rest
  induction rest with
  | nil =>
    intro x
    exact List.mem_cons_self x []
  | cons y ys ih =>
    intro x
    have h1 : pyMaxPair x (y :: ys) =
        pyMaxPair (if pyPairLt x y then y else x) ys := rfl
    rw [h1]
    rcases List.mem_cons.mp (ih (if pyPairLt x y then y else x)) with heq | hmem
    · rw [heq]
      by_cases hc : pyPairLt x y = true
      · rw [if_pos hc]
        exact List.mem_cons_of_mem x (List.mem_cons_self y ys)
      · rw [if_neg hc]
        exact List.mem_cons_self x (y :: ys)
    · exact List.mem_cons_of_mem x (List.mem_cons_of_mem y hmem)

theorem roleOf_mem (sp : Span) :
    roleOf sp ∈ (["Antagonist", "Protagonist", "Innocent", "Unknown"] :
      List String) := by
  unfold roleOf
  have h := pyMaxPair_mem
    [(sp.prob_protagonist, "Protagonist"), (sp.prob_innocent, "Innocent"),
      (sp.prob_unknown, "Unknown")] (sp.prob_antagonist, "Antagonist")
  simp only [List.mem_cons, List.not_mem_nil, or_false] at h
  rcases h with h | h | h | h <;> rw [h] <;> simp

/-! ### Claim theorems -/

/-- C1 counterexample: with a classifier returning the single label
"Deceiver" at confidence exactly 1/2 and threshold exactly 1/2, the claim
says the label is kept, but `pipeline_with_confidence` returns the empty
mapping: the filter is the strict comparison `s.score > threshold`. -/
theorem c1_counterexample :
    pipeline_with_confidence (fun _ => some [("Deceiver", 1/2)]) (1/2)
        ⟨"X", "Antagonist", "ctx"⟩ = [] ∧
      "Deceiver" ∉ keys (pipeline_with_confidence
        (fun _ => some [("Deceiver", 1/2)]) (1/2) ⟨"X", "Antagonist", "ctx"⟩) := by
  have hpipe : pipeline_with_confidence (fun _ => some [("Deceiver", 1/2)]) (1/2)
      ⟨"X", "Antagonist", "ctx"⟩ = [] := by
    unfold pipeline_with_confidence
    simp only
    norm_num [List.filter, dictBuild, sortDesc]
  refine ⟨hpipe, ?_⟩
  rw [hpipe]
  simp [keys]

/-- C1 (amended): threshold filtering in `pipeline_with_confidence` is
boundary-exclusive: a label appears in the returned mapping iff the classifier
gave it some score strictly greater than the threshold; a score exactly equal
to the threshold is excluded, as is one strictly below. -/
theorem c1_threshold_filter_strict (clf : String → Option (List (String × ℚ)))
    (t : ℚ) (r : Stage2Row) (scores : List (String × ℚ))
    (h : clf (stage2InputText r) = some scores) (l : String) :
    l ∈ keys (pipeline_with_confidence clf t r) ↔
      ∃ s, (l, s) ∈ scores ∧ t < s := by
  unfold pipeline_with_confidence
  rw [h]
  simp only
  rw [mem_keys_dictBuild]
  have hperm := ((sortDesc_perm (dictBuild ((scores.filter
      (fun s => decide (t < s.2))).map (fun s => (s.1, round4 s.2))))).map
    Prod.fst).mem_iff (a := l)
  rw [show keys (sortDesc (dictBuild ((scores.filter
      (fun s => decide (t < s.2))).map (fun s => (s.1, round4 s.2))))) =
    (sortDesc (dictBuild ((scores.filter (fun s => decide (t < s.2))).map
      (fun s => (s.1, round4 s.2))))).map Prod.fst from rfl]
  rw [hperm]
  rw [show (dictBuild ((scores.filter (fun s => decide (t < s.2))).map
      (fun s => (s.1, round4 s.2)))).map Prod.fst =
    keys (dictBuild ((scores.filter (fun s => decide (t < s.2))).map
      (fun s => (s.1, round4 s.2)))) from rfl]
  rw [mem_keys_dictBuild, keys_map_round]
  simp only [mem_keys, List.mem_filter]
  constructor
  · rintro ⟨p, ⟨hp, ht⟩, rfl⟩
    exact ⟨p.2, hp, by simpa using ht⟩
  · rintro ⟨s, hs, ht⟩
    exact ⟨(l, s), ⟨hs, by simpa using ht⟩, rfl⟩

/-- C1 witness for the amended theorem: threshold 1/2, scores 3/4 (kept) —
the label "A" is in the output keys. -/
theorem c1_witness :
    "A" ∈ keys (pipeline_with_confidence
      (fun _ => some [("A", 3/4), ("B", 1/4)]) (1/2) ⟨"X", "Antagonist", "c"⟩) :=
  (c1_threshold_filter_strict (fun _ => some [("A", 3/4), ("B", 1/4)]) (1/2)
      ⟨"X", "Antagonist", "c"⟩ [("A", 3/4), ("B", 1/4)] rfl "A").mpr
    ⟨3/4, by simp, by norm_num⟩

/-- C3: the sentence-rendering loop of Home.py (lines 542–545 and 561–564)
initialises the seen-entities accumulator to `None` and threads the
accumulator returned by each `format_sentence_with_spans` call into the next
call: the loop equals sequential threading from the empty accumulator. -/
theorem c3_accumulator_threading {α : Type}
    (f : String → Option α → String × Option α) (sents : List String) :
    renderSentencesLoop f sents =
      (threadedHtmls f none sents, threadedAcc f none sents) := by
  have general : ∀ (l : List String) (hs : List String) (acc : Option α),
      l.foldl (fun acc2 sent =>
          let r := f sent acc2.2
          (acc2.1 ++ [r.1], r.2)) (hs, acc) =
        (hs ++ threadedHtmls f acc l, threadedAcc f acc l) := by
    intro l
    induction l with
    | nil => intro hs acc; simp [threadedHtmls, threadedAcc]
    | cons s rest ih =>
      intro hs acc
      rw [List.foldl_cons]
      simp only
      rw [ih (hs ++ [(f s acc).1]) (f s acc).2]
      simp [threadedHtmls, threadedAcc]
  rw [renderSentencesLoop, general sents [] none]
  simp

/-- C5: the fine-role/confidence mapping returned by
`pipeline_with_confidence` enumerates its entries in non-increasing order of
confidence score. -/
theorem c5_confidences_sorted_descending
    (clf : String → Option (List (String × ℚ))) (t : ℚ) (r : Stage2Row) :
    (pipeline_with_confidence clf t r).Pairwise
      (fun a b : String × ℚ => b.2 ≤ a.2) := by
  unfold pipeline_with_confidence
  cases h : clf (stage2InputText r) with
  | none => exact List.Pairwise.nil
  | some scores =>
    simp only
    have hd := nodup_keys_dictBuild ((scores.filter
      (fun s => decide (t < s.2))).map (fun s => (s.1, round4 s.2)))
    have hsorted : (keys (sortDesc (dictBuild ((scores.filter
        (fun s => decide (t < s.2))).map (fun s => (s.1, round4 s.2)))))).Nodup := by
      have hperm := (sortDesc_perm (dictBuild ((scores.filter
        (fun s => decide (t < s.2))).map (fun s => (s.1, round4 s.2))))).map
        Prod.fst
      exact hperm.nodup_iff.mpr hd
    rw [dictBuild_of_nodup _ hsorted]
    exact pairwise_sortDesc _

/-- C9: whenever the NER model fails to load, the reported error is
"NER model failed to load" regardless of the stage-2 outcome, and the
"Both models failed to load" branch is unreachable for every combination of
loading outcomes. -/
theorem c9_both_failed_branch_unreachable :
    ∀ s : Bool, prediction_error false s = some "NER model failed to load" ∧
      ∀ n : Bool, prediction_error n s ≠ some "Both models failed to load" := by
  decide

/-- C10: a classifier exception (modelled as the classifier returning `none`
for that row's prompt) makes `pipeline_with_confidence` return the empty
mapping instead of propagating, `run_stage2_with_cached_model` still maps
every row of the frame, and the failing row's three fine-role columns are all
empty. -/
theorem c10_classifier_failure_degrades
    (clf : String → Option (List (String × ℚ))) (t m : ℚ)
    (df : List Stage2Row) (r : Stage2Row)
    (h : clf (stage2InputText r) = none) :
    run_stage2_with_cached_model clf t m df = df.map (stage2RowResult clf t m) ∧
      pipeline_with_confidence clf t r = [] ∧
      stage2RowResult clf t m r = ([], [], []) := by
  have hp : pipeline_with_confidence clf t r = [] := by
    unfold pipeline_with_confidence
    rw [h]
  refine ⟨rfl, hp, ?_⟩
  unfold stage2RowResult
  rw [hp]
  rfl

/-- C10 witness: a concrete always-raising classifier on a one-row frame. -/
theorem c10_witness :
    run_stage2_with_cached_model (fun _ => none) (1/100) (1/20)
        [⟨"E", "Protagonist", "ctx"⟩] =
      [⟨"E", "Protagonist", "ctx"⟩].map
        (stage2RowResult (fun _ => none) (1/100) (1/20)) ∧
      pipeline_with_confidence (fun _ => none) (1/100)
        ⟨"E", "Protagonist", "ctx"⟩ = [] ∧
      stage2RowResult (fun _ => none) (1/100) (1/20)
        ⟨"E", "Protagonist", "ctx"⟩ = ([], [], []) :=
  c10_classifier_failure_degrades (fun _ => none) (1/100) (1/20)
    [⟨"E", "Protagonist", "ctx"⟩] ⟨"E", "Protagonist", "ctx"⟩ rfl

/-- C2: margin selection.  For the empty mapping `select_roles_within_margin`
returns the empty list; for a non-empty mapping it returns exactly the roles
whose score is within `margin` of the maximum score (boundary inclusive,
phrased as: at least every score minus the margin); and
`filter_scores_by_margin` restricts the score mapping to exactly the selected
roles (for a well-formed mapping, i.e. distinct keys). -/
theorem c2_margin_selection (margin : ℚ) :
    select_roles_within_margin margin [] = [] ∧
    ∀ scores : List (String × ℚ), scores ≠ [] →
      (∀ r, r ∈ select_roles_within_margin margin scores ↔
        ∃ s, (r, s) ∈ scores ∧ ∀ q ∈ scores, q.2 - margin ≤ s) ∧
      ((keys scores).Nodup →
        ∀ r s, (r, s) ∈ filter_scores_by_margin scores
            (select_roles_within_margin margin scores) ↔
          (r, s) ∈ scores ∧ r ∈ select_roles_within_margin margin scores) := by
  refine ⟨rfl, ?_⟩
  intro scores hne
  match scores, hne with
  | p :: rest, _ =>
    refine ⟨fun r => mem_select_iff margin p rest r, ?_⟩
    intro hnd r s
    rw [mem_filter_scores_by_margin (p :: rest) _ hnd
      (select_roles_nodup margin (p :: rest) hnd) r s]
    tauto

/-- C2 witness: margin 1/20, scores A=9/10 and C=1/2 — A is selected and the
restricted mapping is characterised at ("A", 9/10). -/
theorem c2_witness :
    "A" ∈ select_roles_within_margin (1/20) [("A", 9/10), ("C", 1/2)] ∧
      (("A", 9/10) ∈ filter_scores_by_margin [("A", 9/10), ("C", 1/2)]
          (select_roles_within_margin (1/20) [("A", 9/10), ("C", 1/2)]) ↔
        ("A", 9/10) ∈ [("A", (9:ℚ)/10), ("C", 1/2)] ∧
          "A" ∈ select_roles_within_margin (1/20) [("A", 9/10), ("C", 1/2)]) := by
  have h2 := (c2_margin_selection (1/20)).2 [("A", 9/10), ("C", 1/2)] (by simp)
  constructor
  · refine (h2.1 "A").mpr ⟨9/10, by simp, ?_⟩
    intro q hq
    rcases List.mem_cons.mp hq with rfl | hq2
    · norm_num
    · rcases List.mem_cons.mp hq2 with rfl | hq3
      · norm_num
      · exact absurd hq3 (List.not_mem_nil q)
  · exact h2.2 (by simp [keys]) "A" (9/10)

/-- C6: role filtering is exact membership.  An entity/mention-list pair is in
the output of `filter_labels_by_role` iff it comes from an input entity whose
mentions were filtered to those with `main_role` in the filter and at least
one survived; a mention appears under an entity iff it is an original mention
of that entity with `main_role` in the filter; mention records are passed
through unmodified (the output list is a `filter` of the original). -/
theorem c6_role_filter_membership (labels : List (String × List Mention))
    (rf : List String) :
    (∀ e ms, (e, ms) ∈ filter_labels_by_role labels rf ↔
       ∃ ms0, (e, ms0) ∈ labels ∧
         ms = ms0.filter (fun m => decide (m.main_role ∈ rf)) ∧ ms ≠ []) ∧
    (∀ e ms m, (e, ms) ∈ filter_labels_by_role labels rf → m ∈ ms →
       m.main_role ∈ rf ∧ ∃ ms0, (e, ms0) ∈ labels ∧ m ∈ ms0) ∧
    (∀ e ms0 m, (e, ms0) ∈ labels → m ∈ ms0 → m.main_role ∈ rf →
       ∃ ms, (e, ms) ∈ filter_labels_by_role labels rf ∧ m ∈ ms) := by
  have hmain : ∀ e ms, (e, ms) ∈ filter_labels_by_role labels rf ↔
      ∃ ms0, (e, ms0) ∈ labels ∧
        ms = ms0.filter (fun m => decide (m.main_role ∈ rf)) ∧ ms ≠ [] := by
    intro e ms
    unfold filter_labels_by_role
    rw [List.mem_filterMap]
    constructor
    · rintro ⟨p, hp, hg⟩
      simp only at hg
      by_cases hemp : (p.2.filter (fun m => decide (m.main_role ∈ rf))).isEmpty
      · rw [if_pos hemp] at hg
        exact absurd hg (by simp)
      · rw [if_neg hemp] at hg
        have hinj := Option.some.inj hg
        have he : p.1 = e := congrArg Prod.fst hinj
        have hms : p.2.filter (fun m => decide (m.main_role ∈ rf)) = ms :=
          congrArg Prod.snd hinj
        subst he
        refine ⟨p.2, hp, hms.symm, ?_⟩
        rw [← hms]
        simpa [List.isEmpty_iff] using hemp
    · rintro ⟨ms0, hms0, rfl, hne⟩
      refine ⟨(e, ms0), hms0, ?_⟩
      simp only
      rw [if_neg (by simpa [List.isEmpty_iff] using hne)]
  refine ⟨hmain, ?_, ?_⟩
  · intro e ms m hmem hm
    rcases (hmain e ms).mp hmem with ⟨ms0, hms0, rfl, _⟩
    rcases List.mem_filter.mp hm with ⟨hm0, hrole⟩
    exact ⟨by simpa using hrole, ms0, hms0, hm0⟩
  · intro e ms0 m hms0 hm hrole
    refine ⟨ms0.filter (fun m => decide (m.main_role ∈ rf)),
      (hmain e _).mpr ⟨ms0, hms0, rfl, ?_⟩,
      List.mem_filter.mpr ⟨hm, by simpa using hrole⟩⟩
    intro hnil
    have : m ∈ ms0.filter (fun m => decide (m.main_role ∈ rf)) :=
      List.mem_filter.mpr ⟨hm, by simpa using hrole⟩
    rw [hnil] at this
    exact absurd this (List.not_mem_nil m)

/-- C6 witness: a concrete labels mapping with one Protagonist mention and one
Unknown mention, filter = Protagonist only — the Protagonist mention appears. -/
theorem c6_witness :
    ∃ ms, ("Alice", ms) ∈ filter_labels_by_role
        [("Alice", [⟨"Protagonist", 0⟩, ⟨"Unknown", 1⟩])] ["Protagonist"] ∧
      (⟨"Protagonist", 0⟩ : Mention) ∈ ms :=
  (c6_role_filter_membership
      [("Alice", [⟨"Protagonist", 0⟩, ⟨"Unknown", 1⟩])] ["Protagonist"]).2.2
    "Alice" [⟨"Protagonist", 0⟩, ⟨"Unknown", 1⟩] ⟨"Protagonist", 0⟩
    (by simp) (by simp) (by simp)

/-- C4 counterexample: for the all-whitespace span (0, 1) over the text
consisting of one space — a span with `0 ≤ start ≤ end ≤ len(text)` — the
trimming step of `predict_with_cached_model` produces adjusted offsets
`s = 1, e = 0`, so `s < e` fails, contradicting the claim. -/
theorem c4_counterexample :
    (0 : ℕ) ≤ 1 ∧ (1 : ℕ) ≤ ([' '] : List Char).length ∧
      ¬ ((predSpan [' '] ⟨0, 1, 1, 0, 0, 0⟩).1 <
          (predSpan [' '] ⟨0, 1, 1, 0, 0, 0⟩).2.1) := by
  refine ⟨by norm_num, by simp, ?_⟩
  rw [predSpan_fst, predSpan_snd]
  simp [pySlice, isPySpace, List.takeWhile]

/-- C4 (amended): the main role emitted by `predict_with_cached_model` is
always one of the four enum values; and whenever the span is in bounds and
its slice contains at least one non-whitespace character, the adjusted
offsets satisfy `start ≤ s < e ≤ end` (hence are valid indices into the
text).  For an all-whitespace or empty slice the adjusted offsets collapse
(`s ≥ e`), which the counterexample shows is unavoidable. -/
theorem c4_mention_invariant (text : List Char) (sp : Span) :
    (predSpan text sp).2.2 ∈
        (["Antagonist", "Protagonist", "Innocent", "Unknown"] : List String) ∧
      (sp.start ≤ sp.«end» → sp.«end» ≤ text.length →
        (∃ c ∈ pySlice text sp.start sp.«end», ¬ isPySpace c = true) →
        sp.start ≤ (predSpan text sp).1 ∧
          (predSpan text sp).1 < (predSpan text sp).2.1 ∧
          (predSpan text sp).2.1 ≤ sp.«end») := by
  constructor
  · exact roleOf_mem sp
  · intro h1 h2 hex
    rw [predSpan_fst, predSpan_snd]
    have hlt := length_takeWhile_lt_of_mem_not isPySpace _ hex
    have htd := trailing_dropWhile_eq isPySpace _ hex
    have hdex : ∃ x ∈ ((pySlice text sp.start sp.«end»).dropWhile isPySpace).reverse,
        ¬ isPySpace x = true := by
      rcases hex with ⟨x, hx, hpx⟩
      have hx2 : x ∈ (pySlice text sp.start sp.«end»).takeWhile isPySpace ++
          (pySlice text sp.start sp.«end»).dropWhile isPySpace := by
        rw [List.takeWhile_append_dropWhile]
        exact hx
      rcases List.mem_append.mp hx2 with hxt | hxd
      · exact absurd (List.mem_takeWhile_imp hxt) hpx
      · exact ⟨x, List.mem_reverse.mpr hxd, hpx⟩
    have htlt : ((pySlice text sp.start sp.«end»).reverse.takeWhile
        isPySpace).length <
          ((pySlice text sp.start sp.«end»).dropWhile isPySpace).length := by
      rw [← htd]
      have := length_takeWhile_lt_of_mem_not isPySpace
        ((pySlice text sp.start sp.«end»).dropWhile isPySpace).reverse hdex
      simpa only [List.length_reverse] using this
    have hdlen : ((pySlice text sp.start sp.«end»).dropWhile isPySpace).length =
        (pySlice text sp.start sp.«end»).length -
          ((pySlice text sp.start sp.«end»).takeWhile isPySpace).length := by
      rw [dropWhile_eq_drop_len isPySpace, List.length_drop]
    have hlen := pySlice_length text sp.start sp.«end» h1 h2
    omega

/-- C4 witness: text " ab " with span (0, 4) and antagonist probability 1 —
the adjusted offsets are 1 < 3 ≤ 4 and the role is in the enum. -/
theorem c4_witness :
    (predSpan [' ', 'a', 'b', ' '] ⟨0, 4, 1, 0, 0, 0⟩).2.2 ∈
        (["Antagonist", "Protagonist", "Innocent", "Unknown"] : List String) ∧
      (0 : ℕ) ≤ (predSpan [' ', 'a', 'b', ' '] ⟨0, 4, 1, 0, 0, 0⟩).1 ∧
        (predSpan [' ', 'a', 'b', ' '] ⟨0, 4, 1, 0, 0, 0⟩).1 <
          (predSpan [' ', 'a', 'b', ' '] ⟨0, 4, 1, 0, 0, 0⟩).2.1 ∧
        (predSpan [' ', 'a', 'b', ' '] ⟨0, 4, 1, 0, 0, 0⟩).2.1 ≤ 4 :=
  have h := c4_mention_invariant [' ', 'a', 'b', ' '] ⟨0, 4, 1, 0, 0, 0⟩
  ⟨h.1, h.2 (by norm_num) (by simp)
    ⟨'a', by simp [pySlice], by decide⟩⟩

/-- C8: the whitespace-trimming equation.  For every text and every span with
`0 ≤ start ≤ end ≤ len(text)`, the adjusted offsets `(s, e)` computed by
`predict_with_cached_model` satisfy `text[s:e] = text[start:end].strip()`
under Python slice semantics — including the all-whitespace case, where both
sides are the empty string. -/
theorem c8_trim_slice_equation (text : List Char) (sp : Span)
    (h1 : sp.start ≤ sp.«end») (h2 : sp.«end» ≤ text.length) :
    pySlice text (predSpan text sp).1 (predSpan text sp).2.1 =
      pyStrip (pySlice text sp.start sp.«end») := by
  have hlen := pySlice_length text sp.start sp.«end» h1 h2
  have hltake := takeWhile_len_le isPySpace (pySlice text sp.start sp.«end»)
  have hrtake := takeWhile_rev_len_le isPySpace (pySlice text sp.start sp.«end»)
  rw [predSpan_fst, predSpan_snd]
  by_cases hex : ∃ c ∈ pySlice text sp.start sp.«end», ¬ isPySpace c = true
  · have hlt : ((pySlice text sp.start sp.«end»).takeWhile isPySpace).length +
        ((pySlice text sp.start sp.«end»).reverse.takeWhile isPySpace).length <
          (pySlice text sp.start sp.«end»).length := by
      have htd := trailing_dropWhile_eq isPySpace _ hex
      have hdex : ∃ x ∈ ((pySlice text sp.start sp.«end»).dropWhile
          isPySpace).reverse, ¬ isPySpace x = true := by
        rcases hex with ⟨x, hx, hpx⟩
        have hx2 : x ∈ (pySlice text sp.start sp.«end»).takeWhile isPySpace ++
            (pySlice text sp.start sp.«end»).dropWhile isPySpace := by
          rw [List.takeWhile_append_dropWhile]
          exact hx
        rcases List.mem_append.mp hx2 with hxt | hxd
        · exact absurd (List.mem_takeWhile_imp hxt) hpx
        · exact ⟨x, List.mem_reverse.mpr hxd, hpx⟩
      have htlt : ((pySlice text sp.start sp.«end»).reverse.takeWhile
          isPySpace).length <
            ((pySlice text sp.start sp.«end»).dropWhile isPySpace).length := by
        rw [← htd]
        have := length_takeWhile_lt_of_mem_not isPySpace
          ((pySlice text sp.start sp.«end»).dropWhile isPySpace).reverse hdex
        simpa only [List.length_reverse] using this
      have hdlen : ((pySlice text sp.start sp.«end»).dropWhile
          isPySpace).length = (pySlice text sp.start sp.«end»).length -
            ((pySlice text sp.start sp.«end»).takeWhile isPySpace).length := by
        rw [dropWhile_eq_drop_len isPySpace, List.length_drop]
      omega
    rw [pyStrip_eq_of_exists _ hex]
    show pySlice text _ _ = _
    unfold pySlice
    rw [List.drop_take, List.drop_drop, List.take_take]
    congr 1
    unfold pySlice at hlt hlen
    rw [hlen]
    omega
  · push_neg at hex
    rw [pyStrip_eq_nil_of_all _ hex, takeWhile_len_of_all _ hex,
      takeWhile_rev_len_of_all _ hex, hlen]
    unfold pySlice
    rw [show sp.«end» - (sp.«end» - sp.start) -
        (sp.start + (sp.«end» - sp.start)) = 0 from by omega,
      List.take_zero]

/-- C8 witness: text "  hi  " with span (0, 6): the adjusted slice (2, 4)
equals the stripped original slice "hi". -/
theorem c8_witness :
    (0 : ℕ) ≤ 6 ∧ (6 : ℕ) ≤ ("  hi  ".data).length ∧
      pySlice "  hi  ".data (predSpan "  hi  ".data ⟨0, 6, 1, 0, 0, 0⟩).1
          (predSpan "  hi  ".data ⟨0, 6, 1, 0, 0, 0⟩).2.1 =
        pyStrip (pySlice "  hi  ".data 0 6) :=
  ⟨by norm_num, by simp,
    c8_trim_slice_equation "  hi  ".data ⟨0, 6, 1, 0, 0, 0⟩ (by norm_num)
      (by simp)⟩

theorem annotGo_nil_mentions (hr : Bool) (n : ℕ) :
    ∀ (l : List Char) (pos : ℕ) (seen : List String),
      annotGo hr [] n l pos seen = htmlEscape l := by
  intro l
  induction l with
  | nil =>
    intro pos seen
    simp only [annotGo, htmlEscape]
  | cons c cs ih =>
    intro pos seen
    have hpick : pickAt [] n pos = none := rfl
    simp only [annotGo, hpick, htmlEscape]
    rw [ih (pos + 1) seen]

/-- C7: empty-mention identity.  For every text and the empty mention list,
the document annotation operation (`reformat_text_html_with_tooltips`,
modelled from the spec since `render_text.py` is not among the sources)
returns exactly the HTML-escaped form of the text, with no annotation
spans. -/
theorem c7_empty_mentions_escape (text : String) (hide_repeat : Bool) :
    reformat_text_html_with_tooltips text [] hide_repeat =
      htmlEscape text.data := by
  unfold reformat_text_html_with_tooltips
  exact annotGo_nil_mentions hide_repeat text.data.length text.data 0 []

end FranX
